import Mathlib

set_option maxRecDepth 8000

/-!
# A verification development for the fuzzy-tables field model

This file gives a shallow embedding, in Lean, of the schema-introspection and
field-classification core of the fuzzy-tables React component library:

* `src/lib/fields.ts` — `FIELD_TYPES`, `inferTypeFromValue`,
  `categorizeNestedField`, `getEnumOptions`;
* `src/lib/schemas/file.ts` — `fileSchema`, `isFileSchema`;
* `src/lib/types.ts` — `zodFromFields`;
* `src/lib/utils.ts` — `headerNameFromField` (with a model of lodash
  `startCase`);
* `src/components/Table/index.tsx` — `renderField`, the zod-schema branch of
  `buildTable`, and the `toggleSortingField` store action;
* `src/components/Forms/BaseSideForm.tsx` — the `handleSubmit` state
  transition.

JavaScript runtime values are modelled by the inductive type `JSValue`
(numbers as integers; floating point is not needed by any classified code
path).  Zod schemas are modelled by the inductive type `Zod`, which covers the
constructors the repository manipulates; zod string checks such as `.min(1)`
and the predicate carried by a `.refine(...)` wrapper are abstracted away, as
the introspection code under verification never looks at them.
-/

/-- The JavaScript values flowing through the table and the forms: a shallow
model of the dynamic values `inferTypeFromValue`, `renderField`, lodash `get`
and zod parsing operate on.  A `Date` instance is represented by its ISO
string, a `File` instance by its name; numbers are integers (no code path
under verification distinguishes floats). -/
inductive JSValue where
  | undefined
  | null
  | bool (b : Bool)
  | num (n : Int)
  | str (s : String)
  | date (iso : String)
  | file (name : String)
  | arr (elems : List JSValue)
  | obj (fields : List (String × JSValue))
deriving Repr

/-- The `FIELD_TYPES` constant of `src/lib/fields.ts` (current version, with
the `File` and `MultipleFiles` members). -/
inductive FieldType where
  | SingleLine
  | Date
  | Checkbox
  | MultipleSelect
  | SingleSelect
  | ObjectArray
  | Undefined
  | Null
  | File
  | MultipleFiles
deriving DecidableEq, Repr

/-- JavaScript object property read `m[key]`, as an association-list lookup
(first binding wins; JS objects have unique keys). -/
def lookupKey {α : Type} : List (String × α) → String → Option α
  | [], _ => none
  | (k, v) :: rest, key => if k = key then some v else lookupKey rest key

/-- JavaScript object property write `m[key] = v`: overwrites in place when the
key exists (keeping its position, as JS insertion order does), appends
otherwise. -/
def setKey {α : Type} : List (String × α) → String → α → List (String × α)
  | [], key, v => [(key, v)]
  | (k, w) :: rest, key, v =>
      if k = key then (key, v) :: rest else (k, w) :: setKey rest key v

/-- One splitting step of `String.prototype.split(".")`. -/
def splitDotAux : List Char → List Char → List String
  | [], acc => [String.mk acc.reverse]
  | '.' :: rest, acc => String.mk acc.reverse :: splitDotAux rest []
  | c :: rest, acc => splitDotAux rest (c :: acc)

/-- JavaScript `s.split(".")`: always returns at least one element; the empty
string splits to `[""]` and a trailing dot yields a trailing `""`. -/
def splitOnDots (s : String) : List String :=
  splitDotAux s.data []

/-- ASCII decimal digit, the `\d` class of the date regular expression. -/
def jsDigit (c : Char) : Bool :=
  '0' ≤ c && c ≤ '9'

/-- Matcher for the optional fraction-and-zone tail `(\.\d{3})?Z?$` of the
date regular expression in `inferTypeFromValue`. -/
def dateFracZone : List Char → Bool
  | [] => true
  | ['Z'] => true
  | '.' :: c1 :: c2 :: c3 :: rest =>
      jsDigit c1 && jsDigit c2 && jsDigit c3 && (rest = [] || rest = ['Z'])
  | _ => false

/-- Matcher for the time tail `\d{2}:\d{2}:\d{2}(\.\d{3})?Z?$` that may follow
the `T` separator. -/
def dateTimeTail : List Char → Bool
  | h1 :: h2 :: ':' :: m1 :: m2 :: ':' :: s1 :: s2 :: rest =>
      jsDigit h1 && jsDigit h2 && jsDigit m1 && jsDigit m2 &&
      jsDigit s1 && jsDigit s2 && dateFracZone rest
  | _ => false

/-- The test of the anchored date regular expression
`^\d{4}-\d{2}-\d{2}(T\d{2}:\d{2}:\d{2}(\.\d{3})?Z?)?$` used by
`inferTypeFromValue`. -/
def dateRegexTest (s : String) : Bool :=
  match s.data with
  | y1 :: y2 :: y3 :: y4 :: '-' :: m1 :: m2 :: '-' :: d1 :: d2 :: rest =>
      jsDigit y1 && jsDigit y2 && jsDigit y3 && jsDigit y4 &&
      jsDigit m1 && jsDigit m2 && jsDigit d1 && jsDigit d2 &&
      (match rest with
       | [] => true
       | 'T' :: cs => dateTimeTail cs
       | _ => false)
  | _ => false

/-- The test `typeof v === "object" && v !== null` used inside
`inferTypeFromValue` (in JS, arrays, `Date` and `File` instances are all of
`typeof` "object", and `null` is excluded explicitly). -/
def jsObjectNonNull : JSValue → Bool
  | .arr _ => true
  | .obj _ => true
  | .date _ => true
  | .file _ => true
  | _ => false

/-- `inferTypeFromValue` of `src/lib/fields.ts`: classifies a runtime value.
The source tests run in order: `Date` instance, date-pattern string,
`undefined`, `null`, boolean (including the strings "true"/"false"), array
with a non-null object element, any other array, and finally everything else;
the Lean match keeps that order on each disjoint value class. -/
def inferTypeFromValue : JSValue → FieldType
  | .date _ => .Date
  | .str s =>
      if dateRegexTest s then .Date
      else if s = "true" then .Checkbox
      else if s = "false" then .Checkbox
      else .SingleLine
  | .undefined => .Undefined
  | .null => .Null
  | .bool _ => .Checkbox
  | .arr l =>
      if decide (l.length > 0) && l.any jsObjectNonNull then .ObjectArray
      else .MultipleSelect
  | _ => .SingleLine

/-- JavaScript truthiness, as used by `value ? "✅" : "❌"` in `renderField`.
(`NaN` does not arise: numbers are modelled as integers.) -/
def truthy : JSValue → Bool
  | .undefined => false
  | .null => false
  | .bool b => b
  | .num n => n ≠ 0
  | .str s => s ≠ ""
  | _ => true

mutual

/-- `JSON.stringify` on the modelled values.  String escaping of control
characters is abstracted (no classified code path depends on it); a `File`
instance has no enumerable own properties and serialises to the empty
object. -/
def jsonStringify : JSValue → String
  | .undefined => "undefined"
  | .null => "null"
  | .bool b => if b then "true" else "false"
  | .num n => toString n
  | .str s => "\"" ++ s ++ "\""
  | .date iso => "\"" ++ iso ++ "\""
  | .file _ => "\x7b\x7d"
  | .arr l => "[" ++ jsonArrayBody l ++ "]"
  | .obj fs => "\x7b" ++ jsonObjectBody fs ++ "\x7d"
termination_by v => sizeOf v
decreasing_by all_goals (simp_wf <;> omega)

/-- Comma-joined serialisation of array elements; `undefined` elements
serialise to `null` inside arrays. -/
def jsonArrayBody : List JSValue → String
  | [] => ""
  | [x] => (match x with | .undefined => "null" | v => jsonStringify v)
  | x :: rest =>
      (match x with | .undefined => "null" | v => jsonStringify v) ++ "," ++ jsonArrayBody rest
termination_by l => sizeOf l
decreasing_by all_goals (simp_wf <;> omega)

/-- Comma-joined serialisation of object entries; properties holding
`undefined` are skipped. -/
def jsonObjectBody : List (String × JSValue) → String
  | [] => ""
  | (_, .undefined) :: rest => jsonObjectBody rest
  | (k, v) :: rest =>
      let entry := "\"" ++ k ++ "\":" ++ jsonStringify v
      let tail := jsonObjectBody rest
      if tail = "" then entry else entry ++ "," ++ tail
termination_by l => sizeOf l
decreasing_by all_goals (simp_wf <;> omega)

end

mutual

/-- The JavaScript `String(value)` coercion.  `Date#toString` is abstracted by
the stored ISO representation. -/
def stringJS : JSValue → String
  | .undefined => "undefined"
  | .null => "null"
  | .bool b => if b then "true" else "false"
  | .num n => toString n
  | .str s => s
  | .date iso => iso
  | .file _ => "[object File]"
  | .obj _ => "[object Object]"
  | .arr l => stringJSArray l
termination_by v => sizeOf v
decreasing_by all_goals (simp_wf <;> omega)

/-- `Array.prototype.toString`: elements joined by commas, with `null` and
`undefined` elements contributing the empty string. -/
def stringJSArray : List JSValue → String
  | [] => ""
  | [x] => (match x with | .undefined => "" | .null => "" | v => stringJS v)
  | x :: rest =>
      (match x with | .undefined => "" | .null => "" | v => stringJS v) ++ "," ++ stringJSArray rest
termination_by l => sizeOf l
decreasing_by all_goals (simp_wf <;> omega)

end

/-- The test `typeof value === "object"` of `renderField` (true for `null`,
arrays, plain objects, `Date` and `File` instances). -/
def jsTypeofObject : JSValue → Bool
  | .null => true
  | .arr _ => true
  | .obj _ => true
  | .date _ => true
  | .file _ => true
  | _ => false

/-- The zod schema constructors manipulated by the repository.  `optional`,
`nullable` and `default` store their wrapped schema in `_def.innerType`,
`effects` (the result of `.refine(...)`) stores it in `_def.schema`, and
`array` stores its element schema in `_def.type`, exactly the fields the
introspection code reads.  `z.instanceof(File)` is modelled by the dedicated
constructor `instanceOfFile`; string checks such as `.min(1)` and refinement
predicates are not represented because no code under verification inspects
them. -/
inductive Zod where
  | string
  | number
  | date
  | boolean
  | enum (options : List String)
  | array (elem : Zod)
  | object (shape : List (String × Zod))
  | optional (innerType : Zod)
  | nullable (innerType : Zod)
  | default (innerType : Zod)
  | effects (schema : Zod)
  | union (options : List Zod)
  | instanceOfFile
deriving Repr

mutual

/-- The issue list produced by zod `safeParse`: empty exactly when parsing
succeeds.  Paths are key/index sequences; message texts follow zod loosely
("Required" for a missing required value) — only their presence matters to the
code under verification.  A `.refine(...)` predicate is abstracted as always
passing (`BaseSideForm` never introspects refinement outcomes). -/
def parseIssues : Zod → JSValue → List (List String × String)
  | .string, v =>
      match v with
      | .str _ => [] | .undefined => [([], "Required")] | _ => [([], "Expected string")]
  | .number, v =>
      match v with
      | .num _ => [] | .undefined => [([], "Required")] | _ => [([], "Expected number")]
  | .boolean, v =>
      match v with
      | .bool _ => [] | .undefined => [([], "Required")] | _ => [([], "Expected boolean")]
  | .date, v =>
      match v with
      | .date _ => [] | .undefined => [([], "Required")] | _ => [([], "Expected date")]
  | .enum os, v =>
      match v with
      | .str s => if s ∈ os then [] else [([], "Invalid enum value")]
      | .undefined => [([], "Required")]
      | _ => [([], "Expected string")]
  | .optional i, v => (match v with | .undefined => [] | _ => parseIssues i v)
  | .nullable i, v => (match v with | .null => [] | _ => parseIssues i v)
  | .default i, v => (match v with | .undefined => [] | _ => parseIssues i v)
  | .effects s, v => parseIssues s v
  | .instanceOfFile, v =>
      match v with
      | .file _ => [] | _ => [([], "Input not instance of File")]
  | .array t, v =>
      match v with
      | .arr l =>
          (l.enum.map (fun p => (parseIssues t p.2).map (fun i => (toString p.1 :: i.1, i.2)))).flatten
      | .undefined => [([], "Required")]
      | _ => [([], "Expected array")]
  | .object shape, v =>
      match v with
      | .obj fields => parseShape shape fields
      | .undefined => [([], "Required")]
      | _ => [([], "Expected object")]
  | .union opts, v => if anyOptionPasses opts v then [] else [([], "Invalid input")]
termination_by z _ => sizeOf z
decreasing_by all_goals (simp_wf <;> omega)

/-- Parsing of an object shape: each declared key is parsed against the
property of that name (missing properties read as `undefined`), and its issues
are reported with the key pushed onto their path. -/
def parseShape : List (String × Zod) → List (String × JSValue) → List (List String × String)
  | [], _ => []
  | (k, z) :: rest, fields =>
      ((parseIssues z ((lookupKey fields k).getD .undefined)).map (fun i => (k :: i.1, i.2)))
        ++ parseShape rest fields
termination_by l _ => sizeOf l
decreasing_by all_goals (simp_wf <;> omega)

/-- A union parses when at least one of its options parses. -/
def anyOptionPasses : List Zod → JSValue → Bool
  | [], _ => false
  | z :: rest, v => (parseIssues z v).isEmpty || anyOptionPasses rest v
termination_by l _ => sizeOf l
decreasing_by all_goals (simp_wf <;> omega)

end

/-- The second `fileSchema()` union option: a `ZodObject` whose `key` and
`upload_signature` entries are `ZodString`s (`isFileSchema` checks only the
`instanceof` classes of these entries, so the `.min(1)` checks are
immaterial). -/
def isFileRefObject : Zod → Bool
  | .object shape =>
      (match lookupKey shape "key" with | some .string => true | _ => false) &&
      (match lookupKey shape "upload_signature" with | some .string => true | _ => false)
  | _ => false

/-- `isFileSchema` of `src/lib/schemas/file.ts`: a union one of whose options
accepts `new File([], "test.txt")` under `safeParse` and one of whose options
is the file-reference object. -/
def isFileSchema (schema : Zod) : Bool :=
  match schema with
  | .union opts =>
      opts.any (fun o => (parseIssues o (.file "test.txt")).isEmpty) &&
      opts.any isFileRefObject
  | _ => false

/-- `fileSchema()` of `src/lib/schemas/file.ts`: the union of a client-side
`File`-instance check and the server-side reference object. -/
def fileSchema : Zod :=
  .union [.instanceOfFile,
          .object [("key", .string), ("upload_signature", .string),
                   ("url", .optional .string)]]

/-- The `getNestedType` helper shared (verbatim) by `categorizeNestedField`
and `getEnumOptions`: walks the dotted-path segments through nested
`ZodObject` shapes.  A one-segment remainder returns the entry as is; a longer
remainder continues only through a `ZodObject` (reading a path segment as an
instance property of a non-object zod type never produces a `ZodType` for the
modelled constructors, hence `null`). -/
def getNestedInShape : List (String × Zod) → List String → Option Zod
  | shape, [k] => lookupKey shape k
  | shape, k :: rest =>
      (match lookupKey shape k with
       | some (.object s2) => getNestedInShape s2 rest
       | _ => none)
  | _, [] => none

/-- The `finalType` computation of `categorizeNestedField`/`getEnumOptions`:
the path is split on dots and resolved against the schema's shape (an empty
shape when the schema is not a `ZodObject`). -/
def finalTypeAt (schema : Zod) (path : String) : Option Zod :=
  match schema with
  | .object shape => getNestedInShape shape (splitOnDots path)
  | _ => getNestedInShape [] (splitOnDots path)

/-- The single-level `ZodEffects` unwrap
`finalType instanceof z.ZodEffects ? finalType._def.schema : finalType`. -/
def unwrapEffects : Zod → Zod
  | .effects s => s
  | t => t

/-- The single-level `_def?.innerType ?? unwrappedType` unwrap: `optional`,
`nullable` and `default` carry `innerType` in their `_def`; every other
constructor is returned unchanged. -/
def innerOf : Zod → Zod
  | .optional i => i
  | .nullable i => i
  | .default i => i
  | t => t

/-- The classification applied by `categorizeNestedField` to the resolved
(and then unwrapped) leaf type, in source order: date, boolean, enum,
array-of-enum, array-of-file-schema, file schema, fallback. -/
def classifyFinalType (t : Zod) : FieldType :=
  match innerOf (unwrapEffects t) with
  | .date => .Date
  | .boolean => .Checkbox
  | .enum _ => .SingleSelect
  | .array (.enum _) => .MultipleSelect
  | .array e =>
      if isFileSchema e then .MultipleFiles
      else if isFileSchema (.array e) then .File
      else .SingleLine
  | i => if isFileSchema i then .File else .SingleLine

/-- `categorizeNestedField` of `src/lib/fields.ts` (current version): resolves
the dotted path and classifies the unwrapped leaf; an unresolved path is
`SingleLine`. -/
def categorizeNestedField (path : String) (schema : Zod) : FieldType :=
  match finalTypeAt schema path with
  | none => .SingleLine
  | some t => classifyFinalType t

/-- The option extraction applied by `getEnumOptions` to the resolved and
unwrapped leaf type: the options of an enum or of an array of enums. -/
def enumOptionsOfFinal (t : Zod) : Option (List String) :=
  match innerOf (unwrapEffects t) with
  | .enum os => some os
  | .array (.enum os) => some os
  | _ => none

/-- `getEnumOptions` of `src/lib/fields.ts` (current version). -/
def getEnumOptions (path : String) (schema : Zod) : Option (List String) :=
  match finalTypeAt schema path with
  | none => none
  | some t => enumOptionsOfFinal t

/-- The `instanceof` dispatch `buildTable` applies to each entry of a
`ZodObject` passed as the field list (`src/components/Table/index.tsx`):
`ZodEnum`, `ZodArray`, `ZodDate`, `ZodBoolean`, `ZodObject`, else
`SingleLine`. -/
def buildTableZodFieldType : Zod → FieldType
  | .enum _ => .SingleSelect
  | .array _ => .MultipleSelect
  | .date => .Date
  | .boolean => .Checkbox
  | .object _ => .ObjectArray
  | _ => .SingleLine

/-- The outcome of one `renderField` call, abstracting the produced React
nodes: `localeDate` stands for `new Date(value).toLocaleDateString("es-MX",
...)` applied to the read value (the locale formatting itself is outside the
model), `check`/`cross` for the ✅/❌ marks, `chip`/`chips` for the coloured
span(s), `jsonText`/`text` for plain string output. -/
inductive Rendered where
  | localeDate (value : JSValue)
  | dash
  | check
  | cross
  | jsonText (s : String)
  | chip (s : String)
  | chips (cs : List String)
  | text (s : String)
deriving Repr

/-- The lookup `FIELD_TYPES[type]` guarded by `type in FIELD_TYPES` in
`renderField`: key and stored value coincide in the current `FIELD_TYPES`. -/
def fieldTypeOfKey : String → Option FieldType
  | "SingleLine" => some .SingleLine
  | "Date" => some .Date
  | "Checkbox" => some .Checkbox
  | "MultipleSelect" => some .MultipleSelect
  | "SingleSelect" => some .SingleSelect
  | "ObjectArray" => some .ObjectArray
  | "Undefined" => some .Undefined
  | "Null" => some .Null
  | "File" => some .File
  | "MultipleFiles" => some .MultipleFiles
  | _ => none

/-- Decimal parse of a path segment used as an array index. -/
def segToNatAux : List Char → Nat → Option Nat
  | [], acc => some acc
  | c :: rest, acc =>
      if jsDigit c then segToNatAux rest (acc * 10 + (c.toNat - 48)) else none

/-- Decimal parse of a nonempty all-digit segment; `none` otherwise. -/
def segToNat (s : String) : Option Nat :=
  match s.data with
  | [] => none
  | l => segToNatAux l 0

/-- One step of lodash `_.get`: object property lookup, numeric index into an
array, `undefined` on every other base (property access on primitives is
abstracted to `undefined`; no repository path indexes into strings). -/
def jsGetStep (v : JSValue) (k : String) : JSValue :=
  match v with
  | .obj fs => (lookupKey fs k).getD .undefined
  | .arr l =>
      match segToNat k with
      | some i => l.getD i .undefined
      | none => .undefined
  | _ => .undefined

/-- lodash `_.get(row, field)` with a dotted path. -/
def jsGetPath (root : JSValue) (path : String) : JSValue :=
  (splitOnDots path).foldl jsGetStep root

/-- The string contents of the chips branch: `chip.length` and the React
child `{chip}` require every element to be a string — on any other element
(`number`, `boolean`, `null`, ...) the source throws a `TypeError` (reading
`.length`/indexing `rainbow` with `NaN`), modelled as `none`. -/
def chipStrings : List JSValue → Option (List String)
  | [] => some []
  | .str s :: rest => (chipStrings rest).map (s :: ·)
  | _ :: _ => none

/-- JavaScript `s.slice(0, n)`. -/
def sliceTo (s : String) (n : Nat) : String :=
  String.mk (s.data.take n)

/-- The text of the `SingleLine` branch before truncation:
`typeof value === "object" ? JSON.stringify(value) : String(value)`. -/
def singleLineText (value : JSValue) : String :=
  if jsTypeofObject value then jsonStringify value else stringJS value

/-- The `renderInferredType` switch of `renderField`
(`src/components/Table/index.tsx`, current version).  The `File` and
`MultipleFiles` members reach the exhaustiveness `default` branch, which
throws — modelled as `none`. -/
def renderInferredType (value : JSValue) : FieldType → Option Rendered
  | .Date => some (.localeDate value)
  | .Undefined => some .dash
  | .Null => some .dash
  | .Checkbox => some (if truthy value then .check else .cross)
  | .ObjectArray => some (.jsonText (jsonStringify value))
  | .SingleSelect => some (.chip (stringJS value))
  | .MultipleSelect =>
      (match value with
       | .arr l => (chipStrings l).map Rendered.chips
       | _ => none)
  | .SingleLine => some (.text (sliceTo (singleLineText value) 200))
  | .File => none
  | .MultipleFiles => none

/-- `renderField` of `src/components/Table/index.tsx` (current version): reads
the value at the dotted path with lodash `get`; with no `type` argument it
renders by `inferTypeFromValue`, with a recognised `FIELD_TYPES` key it
renders by that type, and with any other string it falls back to truncated
text. -/
def renderField (row : JSValue) (field : String) (type? : Option String) : Option Rendered :=
  let value := jsGetPath row field
  match type? with
  | none => renderInferredType value (inferTypeFromValue value)
  | some ty =>
      match fieldTypeOfKey ty with
      | some ft => renderInferredType value ft
      | none => some (.text (sliceTo (singleLineText value) 200))

/-- A field definition as consumed by `zodFromFields` and the side forms:
a dotted path, a display header, and a zod validator. -/
structure FieldDef where
  field : String
  header : String
  z : Zod
deriving Repr

/-- The intermediate value built by the `reduce` of `zodFromFields`: a record
whose entries are either zod validators (`leaf`) or nested plain records
(`node`). -/
inductive STree where
  | leaf (z : Zod)
  | node (entries : List (String × STree))
deriving Repr

/-- The body of the `reduce` step of `zodFromFields` for one field, after the
path has been split into the directory segments and the popped last segment:
walks/creates nested records along the directories and assigns the validator
at the last segment.  When the walk meets an entry that already holds a
validator (`leaf`), the JS code keeps walking into the zod *instance* and its
property writes are invisible to `makeZodObject` (which only reads `_def`-bearing
values and plain records), so the insertion is lost — modelled as returning
the tree unchanged. -/
def insertDirs : STree → List String → String → Zod → STree
  | .leaf z0, _, _, _ => .leaf z0
  | .node es, [], last, z => .node (setKey es last (.leaf z))
  | .node es, d :: rest, last, z =>
      match lookupKey es d with
      | some t => .node (setKey es d (insertDirs t rest last z))
      | none => .node (setKey es d (insertDirs (.node []) rest last z))

mutual

/-- `makeZodObject` of `zodFromFields`: a value with `_def` is kept as the
validator itself, a plain record becomes `z.object` of its recursively
converted entries (in insertion order). -/
def makeZod : STree → Zod
  | .leaf z => z
  | .node es => .object (makeZodShape es)
termination_by t => sizeOf t
decreasing_by all_goals (simp_wf <;> omega)

/-- Entry-wise conversion for `makeZod`. -/
def makeZodShape : List (String × STree) → List (String × Zod)
  | [] => []
  | (k, t) :: rest => (k, makeZod t) :: makeZodShape rest
termination_by l => sizeOf l
decreasing_by all_goals (simp_wf <;> omega)

end

/-- The split performed by the `reduce` step of `zodFromFields`:
`parts = field.split(".")`, `lastPart = parts.pop() || field` (so a falsy —
empty — popped segment falls back to the whole field name), and the remaining
directory segments. -/
def splitDirsLast (fieldPath : String) : List String × String :=
  let parts := splitOnDots fieldPath
  let lastRaw := parts.getLastD ""
  (parts.dropLast, if lastRaw = "" then fieldPath else lastRaw)

/-- The full insertion path a field contributes to the shape built by
`zodFromFields`: its directory segments followed by its last segment. -/
def pathOf (f : FieldDef) : List String :=
  (splitDirsLast f.field).1 ++ [(splitDirsLast f.field).2]

/-- One `reduce` step of `zodFromFields`: insert one field's validator at its
split path. -/
def insertField (acc : STree) (f : FieldDef) : STree :=
  insertDirs acc (splitDirsLast f.field).1 (splitDirsLast f.field).2 f.z

/-- `zodFromFields` of `src/lib/types.ts`: folds every field into a nested
record (`reduce`) and converts the result with `makeZodObject`.  The
`parts.length === 0` early return of the source is dead (a JS split always
yields at least one segment) and has no counterpart. -/
def zodFromFields (fields : List FieldDef) : Zod :=
  makeZod (fields.foldl insertField (.node []))

/-- Resolution of a key path through nested `z.object` shapes of a built
schema: used to state where each validator ends up. -/
def zodLookup : Zod → List String → Option Zod
  | z, [] => some z
  | .object shape, k :: rest =>
      (match lookupKey shape k with
       | some z => zodLookup z rest
       | none => none)
  | _, _ :: _ => none

/-- Resolution of a key path through the intermediate record tree, expecting a
validator (`leaf`) at the end. -/
def treeLeafAt : STree → List String → Option Zod
  | .leaf z, [] => some z
  | .node _, [] => none
  | .node es, k :: rest =>
      (match lookupKey es k with
       | some t => treeLeafAt t rest
       | none => none)
  | .leaf _, _ :: _ => none

/-- The directory walk of `insertDirs` never meets a validator: every visited
existing entry is a record, and the walk ends at a record (or leaves the
tree through a missing entry, where fresh records get created). -/
def pathFree : STree → List String → Bool
  | .leaf _, _ => false
  | .node _, [] => true
  | .node es, k :: rest =>
      (match lookupKey es k with
       | some t => pathFree t rest
       | none => true)

/-- `pathBegins p q`: the segment list `p` is an initial segment of `q`. -/
def pathBegins : List String → List String → Bool
  | [], _ => true
  | _ :: _, [] => false
  | a :: as, b :: bs => a = b && pathBegins as bs

/-- Two insertion paths are independent when neither is an initial segment of
the other (in particular they differ). -/
def IndepPaths (p q : List String) : Prop :=
  pathBegins p q = false ∧ pathBegins q p = false

/-- ASCII word character for the lodash `words` model (letter or digit). -/
def isAsciiWordChar (c : Char) : Bool :=
  c.isAlpha || c.isDigit

/-- First pass of the lodash `words` model: maximal runs of word characters
(every other character is a separator and is dropped). -/
def wordRuns : List Char → List Char → List (List Char)
  | [], acc => if acc = [] then [] else [acc.reverse]
  | c :: rest, acc =>
      if isAsciiWordChar c then wordRuns rest (c :: acc)
      else if acc = [] then wordRuns rest []
      else acc.reverse :: wordRuns rest []

/-- Word boundary inside a run, per lodash `words` on ASCII input: lower→upper
(`fooBar`), letter↔digit transitions, and the split before the last upper of
an upper run followed by lowers (`FOOBar` → `FOO`/`Bar`). -/
def camelBoundary (prev c : Char) (next? : Option Char) : Bool :=
  (prev.isLower && c.isUpper) ||
  (prev.isAlpha && c.isDigit) ||
  (prev.isDigit && c.isAlpha) ||
  (prev.isUpper && c.isUpper && (match next? with | some n => n.isLower | none => false))

/-- Second pass of the lodash `words` model: splits one run at camel-case and
letter/digit boundaries.  The accumulator holds the current word reversed, so
its head is the previous character. -/
def splitCamelRun : List Char → List Char → List (List Char)
  | [], acc => if acc = [] then [] else [acc.reverse]
  | c :: rest, [] => splitCamelRun rest [c]
  | c :: rest, p :: acc =>
      if camelBoundary p c rest.head? then (p :: acc).reverse :: splitCamelRun rest [c]
      else splitCamelRun rest (c :: p :: acc)

/-- Model of lodash `words` restricted to ASCII input (the repository's field
names); the deburr/apostrophe handling of the original is immaterial there. -/
def lodashWords (s : String) : List String :=
  (((wordRuns s.data []).map (fun r => splitCamelRun r [])).flatten).map String.mk

/-- lodash `upperFirst`: upper-cases the first character, keeps the rest. -/
def upperFirst (w : String) : String :=
  match w.data with
  | [] => ""
  | c :: rest => String.mk (c.toUpper :: rest)

/-- Model of lodash `startCase`: `upperFirst` of each word, joined by single
spaces. -/
def startCase (s : String) : String :=
  String.intercalate " " ((lodashWords s).map upperFirst)

/-- JavaScript `s.replace("_", " ")`: only the first underscore is
replaced. -/
def replaceFirstUnderscoreAux : List Char → List Char
  | [] => []
  | '_' :: rest => ' ' :: rest
  | c :: rest => c :: replaceFirstUnderscoreAux rest

/-- String wrapper for `replaceFirstUnderscoreAux`. -/
def replaceFirstUnderscore (s : String) : String :=
  String.mk (replaceFirstUnderscoreAux s.data)

/-- `headerNameFromField` of `src/lib/utils.ts`.  On the empty string the
source reads `columnName[0]` (which is `undefined`) and calls `.toLowerCase()`
on it, throwing a `TypeError` — modelled as `none`.  Otherwise: when the first
character equals its lower-case form or the name contains an underscore, the
result is `startCase` of the name with its first underscore replaced by a
space; otherwise the name is returned unchanged. -/
def headerNameFromField (columnName : String) : Option String :=
  match columnName.data with
  | [] => none
  | c :: _ =>
      if c.toLower = c || columnName.data.contains '_' then
        some (startCase (replaceFirstUnderscore columnName))
      else
        some columnName

/-- Sorting direction of a table column. -/
inductive SortDir where
  | asc
  | desc
deriving DecidableEq, Repr

/-- One entry of the `sortingFields` table store state. -/
structure SortingField where
  field : String
  direction : SortDir
deriving DecidableEq, Repr

/-- The `toggleSortingField` store action of
`src/components/Table/index.tsx`: an absent field is appended with direction
"desc"; a found "desc" entry is flipped to "asc" by an in-place map; a found
"asc" entry is removed by a filter. -/
def toggleSortingField (sortingFields : List SortingField) (field : String) :
    List SortingField :=
  match sortingFields.find? (fun f => f.field == field) with
  | none => sortingFields ++ [⟨field, .desc⟩]
  | some existing =>
      if existing.direction = .desc then
        sortingFields.map (fun f => if f.field == field then { f with direction := .asc } else f)
      else
        sortingFields.filter (fun f => f.field != field)

/-- The React state of `BaseSideForm` that `handleSubmit` touches. -/
structure FormState where
  isOpen : Bool
  formData : JSValue
  globalError : Option String
  validationErrors : List (String × Option String)
  submitting : Bool

/-- The behaviour of the `onSubmit` promise: it either resolves or rejects
with an error (represented by the message string handed to
`getErrorMessage`). -/
inductive SubmitOutcome where
  | resolves
  | rejects (error : String)

/-- The fallback global error text of `BaseSideForm`. -/
def defaultSubmitError : String :=
  "Ocurrió un error, intenta de nuevo."

/-- The error-recording loop of `handleSubmit`: a fresh record, assigned
`newErrors[err.path[0]] = err.message` for every issue in order (an empty
issue path reads `path[0]` as `undefined`, which JS coerces to the property
key "undefined"). -/
def recordSubmitErrors (issues : List (List String × String)) :
    List (String × Option String) :=
  issues.foldl (fun acc i => setKey acc (i.1.headD "undefined") (some i.2)) []

/-- `handleSubmit` of `src/components/Forms/BaseSideForm.tsx` as a state
transition.  It runs `safeParse` of `zodFromFields(fields)` on the current
form data; on failure it only replaces `validationErrors`; on success it
invokes `onSubmit` (the returned flag): resolution closes the form and clears
the data, rejection sets the global error (via `getErrorMessage` when given),
and `submitting` ends `false` through the `finally`.  The transition returns
the new state and whether `onSubmit` was invoked. -/
def handleSubmit (fields : List FieldDef) (getErrorMessage : Option (String → String))
    (st : FormState) (outcome : SubmitOutcome) : FormState × Bool :=
  match parseIssues (zodFromFields fields) st.formData with
  | [] =>
      (match outcome with
       | .resolves =>
           ({ st with submitting := false, isOpen := false, formData := .obj [] }, true)
       | .rejects e =>
           (let msg := (getErrorMessage.map (fun g => g e)).getD defaultSubmitError
            ({ st with submitting := false, globalError := some msg }, true)))
  | issue :: rest =>
      ({ st with validationErrors := recordSubmitErrors (issue :: rest) }, false)

/-! ## Helper lemmas -/

theorem lookupKey_setKey_self {α : Type} (m : List (String × α)) (k : String) (v : α) :
    lookupKey (setKey m k v) k = some v := by
  induction m with
  | nil => simp [setKey, lookupKey]
  | cons hd tl ih =>
      obtain ⟨k0, v0⟩ := hd
      by_cases h : k0 = k
      · simp [setKey, lookupKey, h]
      · simp [setKey, lookupKey, h, ih]

theorem lookupKey_setKey_other {α : Type} (m : List (String × α)) (k k2 : String) (v : α)
    (h : k ≠ k2) : lookupKey (setKey m k v) k2 = lookupKey m k2 := by
  induction m with
  | nil => simp [setKey, lookupKey, h]
  | cons hd tl ih =>
      obtain ⟨k0, v0⟩ := hd
      by_cases h0 : k0 = k
      · subst h0
        simp [setKey, lookupKey, h]
      · simp [setKey, lookupKey, h0, ih]

theorem lookupKey_setKey_isSome {α : Type} (m : List (String × α)) (k k2 : String) (v : α)
    (h : (lookupKey m k2).isSome = true) : (lookupKey (setKey m k v) k2).isSome = true := by
  by_cases hk : k = k2
  · subst hk
    simp [lookupKey_setKey_self]
  · rw [lookupKey_setKey_other m k k2 v hk]
    exact h

/-! ## Claim C8 -/

/-- C8: `inferTypeFromValue` is total (it is a Lean function on all modelled
values) and its checks apply in the source's fixed precedence: `Date`
instances and date-pattern strings yield `Date` before any other rule;
`undefined` yields `Undefined`; `null` yields `Null`; booleans and the exact
strings "true"/"false" yield `Checkbox`; an array with a non-null object
element yields `ObjectArray`; every other array (the empty one included)
yields `MultipleSelect`; every remaining value yields `SingleLine`. -/
theorem inferTypeFromValue_total_precedence (v : JSValue) :
    (∀ iso, v = .date iso → inferTypeFromValue v = .Date) ∧
    (∀ s, v = .str s → dateRegexTest s = true → inferTypeFromValue v = .Date) ∧
    (v = .undefined → inferTypeFromValue v = .Undefined) ∧
    (v = .null → inferTypeFromValue v = .Null) ∧
    (∀ b, v = .bool b → inferTypeFromValue v = .Checkbox) ∧
    (v = .str "true" ∨ v = .str "false" → inferTypeFromValue v = .Checkbox) ∧
    (∀ l, v = .arr l → l.any jsObjectNonNull = true → inferTypeFromValue v = .ObjectArray) ∧
    (∀ l, v = .arr l → l.any jsObjectNonNull = false → inferTypeFromValue v = .MultipleSelect) ∧
    (∀ n, v = .num n → inferTypeFromValue v = .SingleLine) ∧
    (∀ s, v = .str s → dateRegexTest s = false → s ≠ "true" → s ≠ "false" →
      inferTypeFromValue v = .SingleLine) ∧
    (∀ fs, v = .obj fs → inferTypeFromValue v = .SingleLine) ∧
    (∀ f, v = .file f → inferTypeFromValue v = .SingleLine) := by
  refine ⟨?_, ?_, ?_, ?_, ?_, ?_, ?_, ?_, ?_, ?_, ?_, ?_⟩
  · rintro iso rfl
    rfl
  · rintro s rfl h
    simp [inferTypeFromValue, h]
  · rintro rfl
    rfl
  · rintro rfl
    rfl
  · rintro b rfl
    rfl
  · rintro (rfl | rfl) <;> rfl
  · rintro l rfl h
    rcases l with _ | ⟨x, xs⟩
    · simp at h
    · simp [inferTypeFromValue, h]
  · rintro l rfl h
    rcases l with _ | ⟨x, xs⟩
    · rfl
    · simp [inferTypeFromValue, h]
  · rintro n rfl
    rfl
  · rintro s rfl h ht hf
    simp [inferTypeFromValue, h, ht, hf]
  · rintro fs rfl
    rfl
  · rintro f rfl
    rfl

/-- Witness for C8 at concrete inputs: a date-pattern string is classified
`Date` (precedence over the string fallback), and the string "false" is
classified `Checkbox`. -/
theorem inferTypeFromValue_total_precedence_witness :
    inferTypeFromValue (.str "2024-01-02") = .Date ∧
    inferTypeFromValue (.str "false") = .Checkbox := by
  constructor
  · exact (inferTypeFromValue_total_precedence (.str "2024-01-02")).2.1 "2024-01-02" rfl (by decide)
  · exact (inferTypeFromValue_total_precedence (.str "false")).2.2.2.2.2.1 (Or.inr rfl)

/-! ## Claim C9 -/

/-- C9: `headerNameFromField` throws on the empty string (the source reads
`columnName[0]` — `undefined` — and calls `.toLowerCase()` on it), here
`none`.  For a non-empty name it is defined: when the first character is
upper-case (differs from its lower-case form) and the name has no underscore,
the name is returned unchanged; otherwise the result is lodash `startCase` of
the name with its first underscore replaced by a space. -/
theorem headerNameFromField_empty_and_cases :
    headerNameFromField "" = none ∧
    (∀ (s : String) (c : Char) (cs : List Char), s.data = c :: cs →
      ((c.toLower ≠ c → s.data.contains '_' = false → headerNameFromField s = some s) ∧
       (c.toLower = c ∨ s.data.contains '_' = true →
         headerNameFromField s = some (startCase (replaceFirstUnderscore s))))) := by
  constructor
  · rfl
  · intro s c cs h
    constructor
    · intro hup hund
      rw [h] at hund
      have h1 : ¬('_' = c) ∧ '_' ∉ cs := by simpa using hund
      unfold headerNameFromField
      rw [h]
      simp [hup, h1.1, h1.2]
    · intro hcase
      unfold headerNameFromField
      rw [h]
      rcases hcase with hc | hu
      · simp [hc]
      · rw [h] at hu
        have h2 : '_' = c ∨ '_' ∈ cs := by simpa using hu
        simp [h2]

/-- Witness for C9: an upper-case, underscore-free name passes through
unchanged, and a snake_case name goes through `startCase`. -/
theorem headerNameFromField_empty_and_cases_witness :
    headerNameFromField "Name" = some "Name" ∧
    headerNameFromField "first_name" = some (startCase (replaceFirstUnderscore "first_name")) := by
  constructor
  · exact ((headerNameFromField_empty_and_cases.2 "Name" 'N' ['a', 'm', 'e'] rfl).1
      (by decide) (by decide))
  · exact ((headerNameFromField_empty_and_cases.2 "first_name" 'f'
      ['i', 'r', 's', 't', '_', 'n', 'a', 'm', 'e'] rfl).2 (Or.inl (by decide)))

/-! ## Claim C10 -/

theorem sorting_find_none (l : List SortingField) (f : String) :
    (∀ e ∈ l, e.field ≠ f) → l.find? (fun e => e.field == f) = none := by
  induction l with
  | nil => intro _; rfl
  | cons x xs ih =>
      intro h
      have hx : (x.field == f) = false := by simpa using h x (by simp)
      simp only [List.find?, hx]
      exact ih (fun e he => h e (by simp [he]))

theorem sorting_find_first (l1 l2 : List SortingField) (x : SortingField) (f : String)
    (hx : x.field = f) :
    (∀ e ∈ l1, e.field ≠ f) →
      (l1 ++ x :: l2).find? (fun e => e.field == f) = some x := by
  induction l1 with
  | nil =>
      intro _
      have hb : (x.field == f) = true := by simpa using hx
      simp [List.find?, hb]
  | cons y ys ih =>
      intro h1
      have hy : (y.field == f) = false := by simpa using h1 y (by simp)
      simp only [List.cons_append, List.find?, hy]
      exact ih (fun e he => h1 e (by simp [he]))

theorem sorting_map_skip (l : List SortingField) (f : String) :
    (∀ e ∈ l, e.field ≠ f) →
      l.map (fun e => if e.field == f then { e with direction := SortDir.asc } else e) = l := by
  induction l with
  | nil => intro _; rfl
  | cons x xs ih =>
      intro h
      have hx : (x.field == f) = false := by simpa using h x (by simp)
      simp only [List.map_cons, hx, Bool.false_eq_true, if_false]
      rw [ih (fun e he => h e (by simp [he]))]

theorem sorting_filter_keep (l : List SortingField) (f : String) :
    (∀ e ∈ l, e.field ≠ f) →
      l.filter (fun e => e.field != f) = l := by
  induction l with
  | nil => intro _; rfl
  | cons x xs ih =>
      intro h
      have hx : (x.field != f) = true := by simpa using h x (by simp)
      simp only [List.filter_cons, hx, if_true]
      rw [ih (fun e he => h e (by simp [he]))]

theorem sorting_filter_map_comm (l : List SortingField) (f : String) :
    (l.map (fun e => if e.field == f then { e with direction := SortDir.asc } else e)).filter
        (fun e => e.field != f)
      = l.filter (fun e => e.field != f) := by
  induction l with
  | nil => rfl
  | cons x xs ih =>
      by_cases hx : x.field = f
      · have hb : (x.field == f) = true := by simpa using hx
        have hne : (x.field != f) = false := by simpa using hx
        have hne2 : (SortingField.field { x with direction := SortDir.asc } != f) = false := by
          simpa using hx
        simp only [List.map_cons, hb, if_true, List.filter_cons, hne, hne2,
          Bool.false_eq_true, if_false]
        exact ih
      · have hb : (x.field == f) = false := by simpa using hx
        have hne : (x.field != f) = true := by simpa using hx
        simp only [List.map_cons, hb, Bool.false_eq_true, if_false, List.filter_cons, hne, if_true]
        rw [ih]

theorem sorting_filter_idem (l : List SortingField) (f : String) :
    (l.filter (fun e => e.field != f)).filter (fun e => e.field != f)
      = l.filter (fun e => e.field != f) := by
  induction l with
  | nil => rfl
  | cons x xs ih =>
      by_cases hx : x.field = f
      · have hne : (x.field != f) = false := by simpa using hx
        simp only [List.filter_cons, hne, Bool.false_eq_true, if_false]
        exact ih
      · have hne : (x.field != f) = true := by simpa using hx
        simp only [List.filter_cons, hne, if_true]
        rw [ih]

/-- C10: `toggleSortingField` cycles a field through absent → "desc" → "asc" →
absent: an absent field is appended at the end with direction "desc"; the
(unique) "desc" entry of the field is flipped to "asc" in place; the (unique)
"asc" entry is removed; entries of every other field keep their values and
relative order (stated both by the surrounding-list forms and by the
unconditional invariance of the list filtered to the other fields); and three
toggles starting from a list without the field return to it. -/
theorem toggleSortingField_cycle (l : List SortingField) (f : String) :
    (l.find? (fun e => e.field == f) = none →
      toggleSortingField l f = l ++ [⟨f, .desc⟩]) ∧
    (∀ l1 l2, l = l1 ++ ⟨f, .desc⟩ :: l2 →
      (∀ e ∈ l1, e.field ≠ f) → (∀ e ∈ l2, e.field ≠ f) →
      toggleSortingField l f = l1 ++ ⟨f, .asc⟩ :: l2) ∧
    (∀ l1 l2, l = l1 ++ ⟨f, .asc⟩ :: l2 →
      (∀ e ∈ l1, e.field ≠ f) → (∀ e ∈ l2, e.field ≠ f) →
      toggleSortingField l f = l1 ++ l2) ∧
    ((toggleSortingField l f).filter (fun e => e.field != f)
      = l.filter (fun e => e.field != f)) ∧
    ((∀ e ∈ l, e.field ≠ f) →
      toggleSortingField (toggleSortingField (toggleSortingField l f) f) f = l) := by
  refine ⟨?_, ?_, ?_, ?_, ?_⟩
  · intro h
    simp [toggleSortingField, h]
  · rintro l1 l2 rfl h1 h2
    have hfind := sorting_find_first l1 l2 ⟨f, .desc⟩ f rfl h1
    simp only [toggleSortingField, hfind]
    simp only [List.map_append, List.map_cons]
    rw [sorting_map_skip l1 f h1, sorting_map_skip l2 f h2]
    simp
  · rintro l1 l2 rfl h1 h2
    have hfind := sorting_find_first l1 l2 ⟨f, .asc⟩ f rfl h1
    simp only [toggleSortingField, hfind]
    simp only [List.filter_append, List.filter_cons]
    rw [sorting_filter_keep l1 f h1, sorting_filter_keep l2 f h2]
    simp
  · unfold toggleSortingField
    cases hfind : l.find? (fun e => e.field == f) with
    | none =>
        simp [List.filter_append, List.filter_cons]
    | some e =>
        by_cases hd : e.direction = .desc
        · simp only [hd, if_pos rfl]
          exact sorting_filter_map_comm l f
        · simp only [if_neg hd]
          exact sorting_filter_idem l f
  · intro h
    have h1 : toggleSortingField l f = l ++ [⟨f, .desc⟩] := by
      simp [toggleSortingField, sorting_find_none l f h]
    have hfind2 := sorting_find_first l [] ⟨f, .desc⟩ f rfl h
    have h2 : toggleSortingField (l ++ [⟨f, .desc⟩]) f = l ++ [⟨f, .asc⟩] := by
      simp only [toggleSortingField, hfind2]
      simp only [List.map_append, List.map_cons]
      rw [sorting_map_skip l f h]
      simp
    have hfind3 := sorting_find_first l [] ⟨f, .asc⟩ f rfl h
    have h3 : toggleSortingField (l ++ [⟨f, .asc⟩]) f = l := by
      simp only [toggleSortingField, hfind3]
      simp only [List.filter_append, List.filter_cons]
      rw [sorting_filter_keep l f h]
      simp
    rw [h1, h2, h3]

/-- Witness for C10: toggling "views" through a one-entry list for another
field appends, flips and removes it while leaving the other entry alone. -/
theorem toggleSortingField_cycle_witness :
    toggleSortingField [⟨"name", .desc⟩] "views" = [⟨"name", .desc⟩, ⟨"views", .desc⟩] ∧
    toggleSortingField (toggleSortingField (toggleSortingField [⟨"name", .desc⟩] "views") "views")
      "views" = [⟨"name", .desc⟩] := by
  constructor
  · exact (toggleSortingField_cycle [⟨"name", .desc⟩] "views").1 (by decide)
  · exact (toggleSortingField_cycle [⟨"name", .desc⟩] "views").2.2.2.2 (by decide)

/-! ## Claim C2 -/

/-- C2 (amended): `categorizeNestedField` classifies the resolved, unwrapped
leaf of a dotted path into SEVEN categories, not six: `ZodDate` ↦ `Date`,
`ZodBoolean` ↦ `Checkbox`, `ZodEnum` ↦ `SingleSelect`, array-of-enum ↦
`MultipleSelect`, array-of-file-schema ↦ `MultipleFiles`, file schema ↦
`File`, and any other or missing leaf ↦ `SingleLine`. -/
theorem categorizeNestedField_classification (path : String) (schema : Zod) :
    (finalTypeAt schema path = none → categorizeNestedField path schema = .SingleLine) ∧
    (∀ t, finalTypeAt schema path = some t →
      (innerOf (unwrapEffects t) = .date → categorizeNestedField path schema = .Date) ∧
      (innerOf (unwrapEffects t) = .boolean → categorizeNestedField path schema = .Checkbox) ∧
      (∀ os, innerOf (unwrapEffects t) = .enum os →
        categorizeNestedField path schema = .SingleSelect) ∧
      (∀ os, innerOf (unwrapEffects t) = .array (.enum os) →
        categorizeNestedField path schema = .MultipleSelect) ∧
      (∀ e, innerOf (unwrapEffects t) = .array e → isFileSchema e = true →
        categorizeNestedField path schema = .MultipleFiles) ∧
      (isFileSchema (innerOf (unwrapEffects t)) = true →
        categorizeNestedField path schema = .File) ∧
      (∀ e, innerOf (unwrapEffects t) = .array e → (∀ os, e ≠ .enum os) →
        isFileSchema e = false → categorizeNestedField path schema = .SingleLine) ∧
      (innerOf (unwrapEffects t) ≠ .date → innerOf (unwrapEffects t) ≠ .boolean →
        (∀ os, innerOf (unwrapEffects t) ≠ .enum os) →
        (∀ e, innerOf (unwrapEffects t) ≠ .array e) →
        isFileSchema (innerOf (unwrapEffects t)) = false →
        categorizeNestedField path schema = .SingleLine)) := by
  constructor
  · intro h
    simp [categorizeNestedField, h]
  · intro t ht
    have hc : categorizeNestedField path schema = classifyFinalType t := by
      simp [categorizeNestedField, ht]
    refine ⟨?_, ?_, ?_, ?_, ?_, ?_, ?_, ?_⟩
    · intro hi
      rw [hc]
      simp [classifyFinalType, hi]
    · intro hi
      rw [hc]
      simp [classifyFinalType, hi]
    · intro os hi
      rw [hc]
      simp [classifyFinalType, hi]
    · intro os hi
      rw [hc]
      simp [classifyFinalType, hi]
    · intro e hi hfile
      rw [hc]
      rcases e with _ | _ | _ | _ | os | e2 | sh | i | i | i | s2 | opts | _
      · exact absurd hfile (by simp [isFileSchema])
      · exact absurd hfile (by simp [isFileSchema])
      · exact absurd hfile (by simp [isFileSchema])
      · exact absurd hfile (by simp [isFileSchema])
      · exact absurd hfile (by simp [isFileSchema])
      · exact absurd hfile (by simp [isFileSchema])
      · exact absurd hfile (by simp [isFileSchema])
      · exact absurd hfile (by simp [isFileSchema])
      · exact absurd hfile (by simp [isFileSchema])
      · exact absurd hfile (by simp [isFileSchema])
      · exact absurd hfile (by simp [isFileSchema])
      · simp [classifyFinalType, hi, hfile]
      · exact absurd hfile (by simp [isFileSchema])
    · intro hfile
      rw [hc]
      rcases hu : innerOf (unwrapEffects t) with _ | _ | _ | _ | os | e2 | sh | i | i | i | s2 | opts | _
      all_goals (rw [hu] at hfile)
      · exact absurd hfile (by simp [isFileSchema])
      · exact absurd hfile (by simp [isFileSchema])
      · exact absurd hfile (by simp [isFileSchema])
      · exact absurd hfile (by simp [isFileSchema])
      · exact absurd hfile (by simp [isFileSchema])
      · exact absurd hfile (by simp [isFileSchema])
      · exact absurd hfile (by simp [isFileSchema])
      · exact absurd hfile (by simp [isFileSchema])
      · exact absurd hfile (by simp [isFileSchema])
      · exact absurd hfile (by simp [isFileSchema])
      · exact absurd hfile (by simp [isFileSchema])
      · simp [classifyFinalType, hu, hfile]
      · exact absurd hfile (by simp [isFileSchema])
    · intro e hi hne hfile
      rw [hc]
      rcases e with _ | _ | _ | _ | os | e2 | sh | i | i | i | s2 | opts | _
      · simp [classifyFinalType, hi, isFileSchema]
      · simp [classifyFinalType, hi, isFileSchema]
      · simp [classifyFinalType, hi, isFileSchema]
      · simp [classifyFinalType, hi, isFileSchema]
      · exact absurd rfl (hne os)
      · simp [classifyFinalType, hi, isFileSchema]
      · simp [classifyFinalType, hi, isFileSchema]
      · simp [classifyFinalType, hi, isFileSchema]
      · simp [classifyFinalType, hi, isFileSchema]
      · simp [classifyFinalType, hi, isFileSchema]
      · simp [classifyFinalType, hi, isFileSchema]
      · simp [classifyFinalType, hi, hfile,
          show isFileSchema (Zod.array (Zod.union opts)) = false from rfl]
      · simp [classifyFinalType, hi, isFileSchema]
    · intro hd hb he ha hfile
      rcases hu : innerOf (unwrapEffects t) with _ | _ | _ | _ | os | e2 | sh | i | i | i | s2 | opts | _
      · simp [hc, classifyFinalType, hu, isFileSchema]
      · simp [hc, classifyFinalType, hu, isFileSchema]
      · exact absurd hu hd
      · exact absurd hu hb
      · exact absurd hu (he os)
      · exact absurd hu (ha e2)
      · simp [hc, classifyFinalType, hu, isFileSchema]
      · simp [hc, classifyFinalType, hu, isFileSchema]
      · simp [hc, classifyFinalType, hu, isFileSchema]
      · simp [hc, classifyFinalType, hu, isFileSchema]
      · simp [hc, classifyFinalType, hu, isFileSchema]
      · rw [hu] at hfile
        simp [hc, classifyFinalType, hu, hfile]
      · simp [hc, classifyFinalType, hu, isFileSchema]

/-- Counterexample for C2 as frozen: an array of file schemas is classified
`MultipleFiles`, a seventh category outside the six the claim enumerates, and
in particular not the `SingleLine` the claim's catch-all requires. -/
theorem categorizeNestedField_file_array_cex :
    categorizeNestedField "documents" (.object [("documents", .array fileSchema)])
      = .MultipleFiles ∧
    (FieldType.MultipleFiles ∉
      ([.SingleLine, .Date, .Checkbox, .SingleSelect, .MultipleSelect, .File] :
        List FieldType)) := by
  constructor
  · simp [categorizeNestedField, finalTypeAt, getNestedInShape, splitOnDots, splitDotAux,
      lookupKey, classifyFinalType, innerOf, unwrapEffects, isFileSchema, fileSchema,
      parseIssues, isFileRefObject]
  · decide

/-- Witness for C2: the amended classification applied at concrete leaves —
a date leaf, an array-of-enum leaf and an array-of-file-schema leaf. -/
theorem categorizeNestedField_classification_witness :
    categorizeNestedField "createdAt" (.object [("createdAt", .date)]) = .Date ∧
    categorizeNestedField "skills" (.object [("skills", .array (.enum ["JS", "TS"]))])
      = .MultipleSelect ∧
    categorizeNestedField "docs" (.object [("docs", .array fileSchema)]) = .MultipleFiles := by
  refine ⟨?_, ?_, ?_⟩
  · exact ((categorizeNestedField_classification "createdAt"
      (.object [("createdAt", .date)])).2 .date rfl).1 rfl
  · exact ((categorizeNestedField_classification "skills"
      (.object [("skills", .array (.enum ["JS", "TS"]))])).2 (.array (.enum ["JS", "TS"]))
      rfl).2.2.2.1 ["JS", "TS"] rfl
  · exact ((categorizeNestedField_classification "docs"
      (.object [("docs", .array fileSchema)])).2 (.array fileSchema)
      rfl).2.2.2.2.1 fileSchema rfl
      (by simp [isFileSchema, fileSchema, parseIssues, isFileRefObject, lookupKey])

/-! ## Claim C3 -/

/-- C3: `getEnumOptions` and `categorizeNestedField` stay consistent: the
options are non-null exactly when the path is classified as a select control
(`SingleSelect` for an enum leaf, `MultipleSelect` for an array-of-enum leaf),
and in those cases the returned list is exactly the enum's options in
order. -/
theorem getEnumOptions_categorize_consistent (path : String) (schema : Zod) :
    ((getEnumOptions path schema).isSome = true ↔
      (categorizeNestedField path schema = .SingleSelect ∨
       categorizeNestedField path schema = .MultipleSelect)) ∧
    (∀ t os, finalTypeAt schema path = some t → innerOf (unwrapEffects t) = .enum os →
      getEnumOptions path schema = some os ∧
      categorizeNestedField path schema = .SingleSelect) ∧
    (∀ t os, finalTypeAt schema path = some t →
      innerOf (unwrapEffects t) = .array (.enum os) →
      getEnumOptions path schema = some os ∧
      categorizeNestedField path schema = .MultipleSelect) := by
  refine ⟨?_, ?_, ?_⟩
  · cases hf : finalTypeAt schema path with
    | none =>
        simp [getEnumOptions, categorizeNestedField, hf]
    | some t =>
        have hgo : getEnumOptions path schema = enumOptionsOfFinal t := by
          simp [getEnumOptions, hf]
        have hct : categorizeNestedField path schema = classifyFinalType t := by
          simp [categorizeNestedField, hf]
        rw [hgo, hct]
        rcases hu : innerOf (unwrapEffects t) with _ | _ | _ | _ | os | e2 | sh | i | i | i | s2 | opts | _
        · simp [enumOptionsOfFinal, classifyFinalType, hu, isFileSchema]
        · simp [enumOptionsOfFinal, classifyFinalType, hu, isFileSchema]
        · simp [enumOptionsOfFinal, classifyFinalType, hu, isFileSchema]
        · simp [enumOptionsOfFinal, classifyFinalType, hu, isFileSchema]
        · simp [enumOptionsOfFinal, classifyFinalType, hu]
        · rcases e2 with _ | _ | _ | _ | os2 | e3 | sh2 | i2 | i2 | i2 | s3 | opts2 | _
          · simp [enumOptionsOfFinal, classifyFinalType, hu, isFileSchema]
          · simp [enumOptionsOfFinal, classifyFinalType, hu, isFileSchema]
          · simp [enumOptionsOfFinal, classifyFinalType, hu, isFileSchema]
          · simp [enumOptionsOfFinal, classifyFinalType, hu, isFileSchema]
          · simp [enumOptionsOfFinal, classifyFinalType, hu]
          · simp [enumOptionsOfFinal, classifyFinalType, hu, isFileSchema]
          · simp [enumOptionsOfFinal, classifyFinalType, hu, isFileSchema]
          · simp [enumOptionsOfFinal, classifyFinalType, hu, isFileSchema]
          · simp [enumOptionsOfFinal, classifyFinalType, hu, isFileSchema]
          · simp [enumOptionsOfFinal, classifyFinalType, hu, isFileSchema]
          · simp [enumOptionsOfFinal, classifyFinalType, hu, isFileSchema]
          · cases hfl : isFileSchema (.union opts2) with
            | false =>
                simp [enumOptionsOfFinal, classifyFinalType, hu, hfl,
                  show isFileSchema (Zod.array (Zod.union opts2)) = false from rfl]
            | true =>
                simp [enumOptionsOfFinal, classifyFinalType, hu, hfl]
          · simp [enumOptionsOfFinal, classifyFinalType, hu, isFileSchema]
        · simp [enumOptionsOfFinal, classifyFinalType, hu, isFileSchema]
        · simp [enumOptionsOfFinal, classifyFinalType, hu, isFileSchema]
        · simp [enumOptionsOfFinal, classifyFinalType, hu, isFileSchema]
        · simp [enumOptionsOfFinal, classifyFinalType, hu, isFileSchema]
        · simp [enumOptionsOfFinal, classifyFinalType, hu, isFileSchema]
        · cases hfl : isFileSchema (.union opts) with
          | false => simp [enumOptionsOfFinal, classifyFinalType, hu, hfl]
          | true => simp [enumOptionsOfFinal, classifyFinalType, hu, hfl]
        · simp [enumOptionsOfFinal, classifyFinalType, hu, isFileSchema]
  · intro t os hf hu
    constructor
    · simp [getEnumOptions, hf, enumOptionsOfFinal, hu]
    · simp [categorizeNestedField, hf, classifyFinalType, hu]
  · intro t os hf hu
    constructor
    · simp [getEnumOptions, hf, enumOptionsOfFinal, hu]
    · simp [categorizeNestedField, hf, classifyFinalType, hu]

/-- Witness for C3: the options of a concrete enum leaf and of a concrete
array-of-enum leaf, matching their classifications. -/
theorem getEnumOptions_categorize_consistent_witness :
    getEnumOptions "status" (.object [("status", .enum ["active", "inactive"])])
      = some ["active", "inactive"] ∧
    getEnumOptions "skills" (.object [("skills", .effects (.array (.enum ["JS", "TS"])))])
      = some ["JS", "TS"] := by
  constructor
  · exact ((getEnumOptions_categorize_consistent "status"
      (.object [("status", .enum ["active", "inactive"])])).2.1
      (.enum ["active", "inactive"]) ["active", "inactive"] rfl rfl).1
  · exact ((getEnumOptions_categorize_consistent "skills"
      (.object [("skills", .effects (.array (.enum ["JS", "TS"])))])).2.2
      (.effects (.array (.enum ["JS", "TS"]))) ["JS", "TS"] rfl rfl).1

/-! ## Claim C7 -/

theorem classify_options_congr (a b : Zod)
    (h : innerOf (unwrapEffects a) = innerOf (unwrapEffects b)) :
    classifyFinalType a = classifyFinalType b ∧
    enumOptionsOfFinal a = enumOptionsOfFinal b := by
  constructor
  · unfold classifyFinalType
    rw [h]
  · unfold enumOptionsOfFinal
    rw [h]

/-- C7 (amended): a SINGLE wrapper around a bare leaf — `.optional(...)`,
`.default(...)`, or one `ZodEffects` refinement — leaves
`categorizeNestedField` and `getEnumOptions` unchanged, and a `ZodEffects`
wrapper applied outside a single `.optional`/`.default` also does; but the
claim fails as frozen for combined wrappers in the natural order
`z.array(z.enum(...)).refine(...).default(...)` (a `ZodDefault` over a
`ZodEffects`), where the single-level unwrap stops and the field degrades to
`SingleLine`/null options — see the counterexample. -/
theorem categorize_options_wrap_invariant (path : String) (s s2 t : Zod)
    (hinner : innerOf t = t) (heff : unwrapEffects t = t) :
    (finalTypeAt s path = some (.optional t) → finalTypeAt s2 path = some t →
      categorizeNestedField path s = categorizeNestedField path s2 ∧
      getEnumOptions path s = getEnumOptions path s2) ∧
    (finalTypeAt s path = some (.default t) → finalTypeAt s2 path = some t →
      categorizeNestedField path s = categorizeNestedField path s2 ∧
      getEnumOptions path s = getEnumOptions path s2) ∧
    (finalTypeAt s path = some (.effects t) → finalTypeAt s2 path = some t →
      categorizeNestedField path s = categorizeNestedField path s2 ∧
      getEnumOptions path s = getEnumOptions path s2) ∧
    (finalTypeAt s path = some (.effects (.optional t)) → finalTypeAt s2 path = some t →
      categorizeNestedField path s = categorizeNestedField path s2 ∧
      getEnumOptions path s = getEnumOptions path s2) ∧
    (finalTypeAt s path = some (.effects (.default t)) → finalTypeAt s2 path = some t →
      categorizeNestedField path s = categorizeNestedField path s2 ∧
      getEnumOptions path s = getEnumOptions path s2) := by
  have base : ∀ (w : Zod), innerOf (unwrapEffects w) = innerOf (unwrapEffects t) →
      ∀ (hs : finalTypeAt s path = some w) (hs2 : finalTypeAt s2 path = some t),
      categorizeNestedField path s = categorizeNestedField path s2 ∧
      getEnumOptions path s = getEnumOptions path s2 := by
    intro w hw hs hs2
    have hcg := classify_options_congr w t hw
    constructor
    · simp [categorizeNestedField, hs, hs2, hcg.1]
    · simp [getEnumOptions, hs, hs2, hcg.2]
  refine ⟨?_, ?_, ?_, ?_, ?_⟩
  · exact base (.optional t)
      (by rw [show innerOf (unwrapEffects (Zod.optional t)) = t from rfl, heff, hinner])
  · exact base (.default t)
      (by rw [show innerOf (unwrapEffects (Zod.default t)) = t from rfl, heff, hinner])
  · exact base (.effects t)
      (by rw [show unwrapEffects (Zod.effects t) = t from rfl, heff])
  · exact base (.effects (.optional t))
      (by rw [show innerOf (unwrapEffects (Zod.effects (Zod.optional t))) = t from rfl,
        heff, hinner])
  · exact base (.effects (.default t))
      (by rw [show innerOf (unwrapEffects (Zod.effects (Zod.default t))) = t from rfl,
        heff, hinner])

/-- Counterexample for C7 as frozen: the combined wrappers of
`z.array(z.enum(["a","b"])).refine(...).default([])` — a `ZodDefault` whose
inner type is a `ZodEffects` — do NOT behave like the unwrapped array-of-enum
leaf: the wrapped field is classified `SingleLine` with null options, the bare
one `MultipleSelect` with the enum options. -/
theorem categorize_wrap_combined_cex :
    categorizeNestedField "tags"
      (.object [("tags", .default (.effects (.array (.enum ["a", "b"]))))]) = .SingleLine ∧
    categorizeNestedField "tags"
      (.object [("tags", .array (.enum ["a", "b"]))]) = .MultipleSelect ∧
    getEnumOptions "tags"
      (.object [("tags", .default (.effects (.array (.enum ["a", "b"]))))]) = none ∧
    getEnumOptions "tags"
      (.object [("tags", .array (.enum ["a", "b"]))]) = some ["a", "b"] := by
  refine ⟨?_, by rfl, by rfl, by rfl⟩
  simp [categorizeNestedField, finalTypeAt, getNestedInShape, splitOnDots, splitDotAux, lookupKey,
    classifyFinalType, innerOf, unwrapEffects, isFileSchema]

/-- Witness for C7: a single `.optional(...)` wrapper and an
`effects`-outside-`default` wrapper around a concrete array-of-enum leaf give
the same classification and options as the bare leaf. -/
theorem categorize_options_wrap_invariant_witness :
    (categorizeNestedField "tags" (.object [("tags", .optional (.array (.enum ["a", "b"])))])
      = categorizeNestedField "tags" (.object [("tags", .array (.enum ["a", "b"]))])) ∧
    (getEnumOptions "tags" (.object [("tags", .effects (.default (.array (.enum ["a", "b"]))))])
      = getEnumOptions "tags" (.object [("tags", .array (.enum ["a", "b"]))])) := by
  constructor
  · exact ((categorize_options_wrap_invariant "tags"
      (.object [("tags", .optional (.array (.enum ["a", "b"])))])
      (.object [("tags", .array (.enum ["a", "b"]))])
      (.array (.enum ["a", "b"])) rfl rfl).1 rfl rfl).1
  · exact ((categorize_options_wrap_invariant "tags"
      (.object [("tags", .effects (.default (.array (.enum ["a", "b"]))))])
      (.object [("tags", .array (.enum ["a", "b"]))])
      (.array (.enum ["a", "b"])) rfl rfl).2.2.2.2 rfl rfl).2

/-! ## Claim C4 -/

/-- C4 (amended): the `instanceof` dispatch of `buildTable` over a
`ZodObject`'s entries agrees with `categorizeNestedField` on the same field
only for the validators on which both sides land on the same member: bare
`ZodString`/`ZodNumber` (both `SingleLine`), bare `ZodDate`, `ZodBoolean`,
`ZodEnum`, and arrays of enums.  It does NOT agree in general — arrays of
non-enums, nested objects, file schemas, and wrapped validators differ (see
the counterexample). -/
theorem buildTable_categorize_agree (key : String) (z : Zod)
    (hk : splitOnDots key = [key])
    (hz : z = .string ∨ z = .number ∨ z = .date ∨ z = .boolean ∨
      (∃ os, z = .enum os) ∨ (∃ os, z = .array (.enum os))) :
    buildTableZodFieldType z = categorizeNestedField key (.object [(key, z)]) := by
  have hf : finalTypeAt (.object [(key, z)]) key = some z := by
    simp [finalTypeAt, hk, getNestedInShape, lookupKey]
  have hc : categorizeNestedField key (.object [(key, z)]) = classifyFinalType z := by
    simp [categorizeNestedField, hf]
  rw [hc]
  rcases hz with rfl | rfl | rfl | rfl | ⟨os, rfl⟩ | ⟨os, rfl⟩
  · simp [buildTableZodFieldType, classifyFinalType, innerOf, unwrapEffects, isFileSchema]
  · simp [buildTableZodFieldType, classifyFinalType, innerOf, unwrapEffects, isFileSchema]
  · rfl
  · rfl
  · rfl
  · rfl

/-- Counterexample for C4 as frozen: on `z.array(z.string())` the table's
dispatch says `MultipleSelect` (any `ZodArray`) while `categorizeNestedField`
says `SingleLine` (only arrays of enums are selects). -/
theorem buildTable_categorize_disagree_cex :
    buildTableZodFieldType (.array .string) = .MultipleSelect ∧
    categorizeNestedField "items" (.object [("items", .array .string)]) = .SingleLine ∧
    buildTableZodFieldType (.array .string)
      ≠ categorizeNestedField "items" (.object [("items", .array .string)]) := by
  have h2 : categorizeNestedField "items" (.object [("items", .array .string)]) = .SingleLine := by
    simp [categorizeNestedField, finalTypeAt, getNestedInShape, splitOnDots, splitDotAux,
      lookupKey, classifyFinalType, innerOf, unwrapEffects, isFileSchema]
  refine ⟨rfl, h2, ?_⟩
  rw [h2]
  decide

/-- Witness for C4: the two dispatches agree on a concrete enum field and on a
concrete array-of-enum field. -/
theorem buildTable_categorize_agree_witness :
    buildTableZodFieldType (.enum ["a", "b"])
      = categorizeNestedField "status" (.object [("status", .enum ["a", "b"])]) ∧
    buildTableZodFieldType (.array (.enum ["x"]))
      = categorizeNestedField "skills" (.object [("skills", .array (.enum ["x"]))]) := by
  constructor
  · exact buildTable_categorize_agree "status" (.enum ["a", "b"]) (by decide)
      (Or.inr (Or.inr (Or.inr (Or.inr (Or.inl ⟨["a", "b"], rfl⟩)))))
  · exact buildTable_categorize_agree "skills" (.array (.enum ["x"])) (by decide)
      (Or.inr (Or.inr (Or.inr (Or.inr (Or.inr ⟨["x"], rfl⟩)))))

/-! ## Claim C5 -/

/-- C5 (amended): `renderField` reads the value at the dotted path with lodash
`get` and, given no explicit type, renders by the inferred type: dash for
`undefined`/`null`; for booleans and for the strings "true"/"false" the
truthiness-based check/cross marks (so the string "false", being truthy,
renders a check); a LOCALE-FORMATTED DATE for `Date` instances and
date-pattern strings (not their truncated string form); the JSON string for an
array containing a non-null object; one chip per element for an array of
strings, while an array holding a non-string primitive makes the renderer
throw; and for the remaining values their string form (JSON for objects)
truncated to 200 characters. -/
theorem renderField_inferred_rendering (row : JSValue) (field : String) (value : JSValue)
    (hv : jsGetPath row field = value) :
    (value = .undefined ∨ value = .null → renderField row field none = some .dash) ∧
    (∀ b, value = .bool b →
      renderField row field none = some (if b then .check else .cross)) ∧
    (value = .str "true" ∨ value = .str "false" → renderField row field none = some .check) ∧
    (∀ iso, value = .date iso → renderField row field none = some (.localeDate value)) ∧
    (∀ s, value = .str s → dateRegexTest s = true →
      renderField row field none = some (.localeDate value)) ∧
    (∀ l, value = .arr l → l.any jsObjectNonNull = true →
      renderField row field none = some (.jsonText (jsonStringify value))) ∧
    (∀ l, value = .arr l → l.any jsObjectNonNull = false →
      renderField row field none = (chipStrings l).map Rendered.chips) ∧
    (∀ n, value = .num n →
      renderField row field none = some (.text (sliceTo (stringJS value) 200))) ∧
    (∀ s, value = .str s → dateRegexTest s = false → s ≠ "true" → s ≠ "false" →
      renderField row field none = some (.text (sliceTo s 200))) ∧
    (∀ fs, value = .obj fs →
      renderField row field none = some (.text (sliceTo (jsonStringify value) 200))) ∧
    (∀ f, value = .file f →
      renderField row field none = some (.text (sliceTo (jsonStringify value) 200))) := by
  have hr : renderField row field none = renderInferredType value (inferTypeFromValue value) := by
    simp [renderField, hv]
  refine ⟨?_, ?_, ?_, ?_, ?_, ?_, ?_, ?_, ?_, ?_, ?_⟩
  · rintro (rfl | rfl) <;> rw [hr] <;> rfl
  · rintro b rfl
    rw [hr]
    cases b <;> rfl
  · rintro (rfl | rfl) <;> rw [hr] <;> rfl
  · rintro iso rfl
    rw [hr]
    rfl
  · rintro s rfl h
    rw [hr]
    simp [inferTypeFromValue, h, renderInferredType]
  · rintro l rfl h
    rw [hr]
    rcases l with _ | ⟨x, xs⟩
    · simp at h
    · simp [inferTypeFromValue, h, renderInferredType]
  · rintro l rfl h
    rw [hr]
    rcases l with _ | ⟨x, xs⟩
    · rfl
    · simp [inferTypeFromValue, h, renderInferredType]
  · rintro n rfl
    rw [hr]
    simp [inferTypeFromValue, renderInferredType, singleLineText, jsTypeofObject]
  · rintro s rfl h ht hf
    rw [hr]
    simp [inferTypeFromValue, h, ht, hf, renderInferredType, singleLineText, jsTypeofObject,
      stringJS]
  · rintro fs rfl
    rw [hr]
    simp [inferTypeFromValue, renderInferredType, singleLineText, jsTypeofObject]
  · rintro f rfl
    rw [hr]
    simp [inferTypeFromValue, renderInferredType, singleLineText, jsTypeofObject]

/-- Counterexample for C5 as frozen: a date-pattern string value is NOT
rendered as its (truncated) string form — `renderField` wraps it in
`new Date(...).toLocaleDateString(...)`. -/
theorem renderField_date_string_cex :
    renderField (.obj [("a", .str "2024-01-02")]) "a" none
      = some (.localeDate (.str "2024-01-02")) ∧
    renderField (.obj [("a", .str "2024-01-02")]) "a" none
      ≠ some (.text "2024-01-02") := by
  have h : renderField (.obj [("a", .str "2024-01-02")]) "a" none
      = some (.localeDate (.str "2024-01-02")) := rfl
  refine ⟨h, ?_⟩
  rw [h]
  simp

/-- Witness for C5: the characterization applied to a nested boolean read
through a dotted path and to an array of strings rendered as chips. -/
theorem renderField_inferred_rendering_witness :
    renderField (.obj [("a", .obj [("b", .bool true)])]) "a.b" none = some .check ∧
    renderField (.obj [("tags", .arr [.str "x", .str "y"])]) "tags" none
      = some (.chips ["x", "y"]) := by
  constructor
  · have := (renderField_inferred_rendering (.obj [("a", .obj [("b", .bool true)])]) "a.b"
      (.bool true) rfl).2.1 true rfl
    simpa using this
  · have := (renderField_inferred_rendering (.obj [("tags", .arr [.str "x", .str "y"])]) "tags"
      (.arr [.str "x", .str "y"]) rfl).2.2.2.2.2.2.1 [.str "x", .str "y"] rfl (by decide)
    simpa [chipStrings] using this

/-! ## Claim C6 -/

theorem lookupKey_foldl_setKey_keeps (issues : List (List String × String))
    (acc : List (String × Option String)) (k : String)
    (h : (lookupKey acc k).isSome = true) :
    (lookupKey (issues.foldl (fun m j => setKey m (j.1.headD "undefined") (some j.2)) acc)
      k).isSome = true := by
  induction issues generalizing acc with
  | nil => exact h
  | cons j rest ih =>
      exact ih _ (lookupKey_setKey_isSome acc (j.1.headD "undefined") k (some j.2) h)

theorem recordSubmitErrors_covers (issues : List (List String × String)) :
    ∀ i ∈ issues, (lookupKey (recordSubmitErrors issues) (i.1.headD "undefined")).isSome = true := by
  unfold recordSubmitErrors
  generalize ([] : List (String × Option String)) = acc
  induction issues generalizing acc with
  | nil => intro i hi; cases hi
  | cons j rest ih =>
      intro i hi
      rcases List.mem_cons.mp hi with rfl | hmem
      · exact lookupKey_foldl_setKey_keeps rest _ _
          (by rw [lookupKey_setKey_self]; rfl)
      · exact ih _ i hmem

/-- C6: submission is gated by `safeParse` of the `zodFromFields` schema on
the current form data: `onSubmit` runs exactly when parsing succeeds; on
failure the form data, open state and global error are untouched, the
validation errors are rebuilt and hold a message under the head of every
reported issue path; a resolving `onSubmit` closes the form and resets the
data to the empty object; a rejecting `onSubmit` leaves the form open and sets
the global error. -/
theorem handleSubmit_validation_gate (fields : List FieldDef)
    (gem : Option (String → String)) (st : FormState) (outcome : SubmitOutcome) :
    ((handleSubmit fields gem st outcome).2 = true ↔
      parseIssues (zodFromFields fields) st.formData = []) ∧
    (parseIssues (zodFromFields fields) st.formData ≠ [] →
      (handleSubmit fields gem st outcome).1.formData = st.formData ∧
      (handleSubmit fields gem st outcome).1.isOpen = st.isOpen ∧
      (handleSubmit fields gem st outcome).1.globalError = st.globalError ∧
      ∀ i ∈ parseIssues (zodFromFields fields) st.formData,
        (lookupKey (handleSubmit fields gem st outcome).1.validationErrors
          (i.1.headD "undefined")).isSome = true) ∧
    (parseIssues (zodFromFields fields) st.formData = [] → outcome = .resolves →
      (handleSubmit fields gem st outcome).1.isOpen = false ∧
      (handleSubmit fields gem st outcome).1.formData = .obj []) ∧
    (∀ e, parseIssues (zodFromFields fields) st.formData = [] → outcome = .rejects e →
      (handleSubmit fields gem st outcome).1.isOpen = st.isOpen ∧
      ∃ msg, (handleSubmit fields gem st outcome).1.globalError = some msg) := by
  refine ⟨?_, ?_, ?_, ?_⟩
  · cases hp : parseIssues (zodFromFields fields) st.formData with
    | nil =>
        cases outcome <;> simp [handleSubmit, hp]
    | cons i rest =>
        simp [handleSubmit, hp]
  · intro hne
    cases hp : parseIssues (zodFromFields fields) st.formData with
    | nil => exact absurd hp hne
    | cons i rest =>
        refine ⟨by simp [handleSubmit, hp], by simp [handleSubmit, hp],
          by simp [handleSubmit, hp], ?_⟩
        intro j hj
        have hv : (handleSubmit fields gem st outcome).1.validationErrors
            = recordSubmitErrors (i :: rest) := by
          simp [handleSubmit, hp]
        rw [hv]
        exact recordSubmitErrors_covers (i :: rest) j (by rw [← hp] at hj; rw [hp] at hj; exact hj)
  · intro hp hout
    subst hout
    constructor <;> simp [handleSubmit, hp]
  · intro e hp hout
    subst hout
    refine ⟨by simp [handleSubmit, hp], ?_⟩
    exact ⟨(gem.map (fun g => g e)).getD defaultSubmitError, by simp [handleSubmit, hp]⟩

/-- Witness for C6: with a single required string field and empty form data,
parsing fails, `onSubmit` is not invoked, the data is unchanged and an error
is recorded under "name"; with valid data and a resolving `onSubmit`, the form
closes. -/
theorem handleSubmit_validation_gate_witness :
    (handleSubmit [⟨"name", "Name", .string⟩] none
      ⟨true, .obj [], none, [], false⟩ .resolves).1.formData = .obj [] ∧
    (lookupKey (handleSubmit [⟨"name", "Name", .string⟩] none
      ⟨true, .obj [], none, [], false⟩ .resolves).1.validationErrors "name").isSome = true ∧
    (handleSubmit [⟨"name", "Name", .string⟩] none
      ⟨true, .obj [("name", .str "x")], none, [], false⟩ .resolves).1.isOpen = false := by
  have hfail : parseIssues (zodFromFields [⟨"name", "Name", .string⟩]) (JSValue.obj [])
      = [(["name"], "Required")] := by
    simp [zodFromFields, insertField, splitDirsLast, splitOnDots, splitDotAux, insertDirs,
      lookupKey, setKey, makeZod, makeZodShape, parseIssues, parseShape]
  have hok : parseIssues (zodFromFields [⟨"name", "Name", .string⟩])
      (JSValue.obj [("name", .str "x")]) = [] := by
    simp [zodFromFields, insertField, splitDirsLast, splitOnDots, splitDotAux, insertDirs,
      lookupKey, setKey, makeZod, makeZodShape, parseIssues, parseShape]
  refine ⟨?_, ?_, ?_⟩
  · exact ((handleSubmit_validation_gate [⟨"name", "Name", .string⟩] none
      ⟨true, .obj [], none, [], false⟩ .resolves).2.1 (by rw [hfail]; simp)).1
  · have := ((handleSubmit_validation_gate [⟨"name", "Name", .string⟩] none
      ⟨true, .obj [], none, [], false⟩ .resolves).2.1 (by rw [hfail]; simp)).2.2.2
      (["name"], "Required") (by rw [hfail]; simp)
    simpa using this
  · exact ((handleSubmit_validation_gate [⟨"name", "Name", .string⟩] none
      ⟨true, .obj [("name", .str "x")], none, [], false⟩ .resolves).2.2.1 hok rfl).1

/-! ## Claim C1 -/

theorem pathFree_nilNode (p : List String) : pathFree (.node []) p = true := by
  cases p <;> rfl

theorem treeLeafAt_nilNode (p : List String) : treeLeafAt (.node []) p = none := by
  cases p <;> rfl

theorem treeLeafAt_insertDirs_self (dirs : List String) (t : STree) (last : String) (z : Zod)
    (h : pathFree t dirs = true) :
    treeLeafAt (insertDirs t dirs last z) (dirs ++ [last]) = some z := by
  induction dirs generalizing t with
  | nil =>
      cases t with
      | leaf z0 => simp [pathFree] at h
      | node es =>
          simp [insertDirs, treeLeafAt, lookupKey_setKey_self]
  | cons d rest ih =>
      cases t with
      | leaf z0 => simp [pathFree] at h
      | node es =>
          cases hl : lookupKey es d with
          | some t2 =>
              have h2 : pathFree t2 rest = true := by
                simpa [pathFree, hl] using h
              simp [insertDirs, hl, treeLeafAt, lookupKey_setKey_self, ih t2 h2]
          | none =>
              simp [insertDirs, hl, treeLeafAt, lookupKey_setKey_self,
                ih (.node []) (pathFree_nilNode rest)]

theorem treeLeafAt_insertDirs_other (dirs : List String) (t : STree) (last : String) (z : Zod)
    (q : List String) (h : IndepPaths q (dirs ++ [last])) :
    treeLeafAt (insertDirs t dirs last z) q = treeLeafAt t q := by
  induction dirs generalizing t q with
  | nil =>
      cases t with
      | leaf z0 => rfl
      | node es =>
          cases q with
          | nil => simp [insertDirs, treeLeafAt]
          | cons k qr =>
              have hk : k ≠ last := by
                intro hkeq
                subst hkeq
                have := h.2
                simp [pathBegins] at this
              simp [insertDirs, treeLeafAt, lookupKey_setKey_other es last k (.leaf z)
                (fun hx => hk hx.symm)]
  | cons d rest ih =>
      cases t with
      | leaf z0 => rfl
      | node es =>
          cases q with
          | nil =>
              cases hl : lookupKey es d <;> simp [insertDirs, hl, treeLeafAt]
          | cons k qr =>
              by_cases hk : k = d
              · subst hk
                have hind : IndepPaths qr (rest ++ [last]) := by
                  constructor
                  · have := h.1
                    simpa [pathBegins] using this
                  · have := h.2
                    simpa [pathBegins] using this
                cases hl : lookupKey es k with
                | some t2 =>
                    simp [insertDirs, hl, treeLeafAt, lookupKey_setKey_self, ih t2 qr hind]
                | none =>
                    simp [insertDirs, hl, treeLeafAt, lookupKey_setKey_self,
                      ih (.node []) qr hind, treeLeafAt_nilNode]
              · cases hl : lookupKey es d with
                | some t2 =>
                    simp [insertDirs, hl, treeLeafAt,
                      lookupKey_setKey_other es d k _ (fun hx => hk hx.symm)]
                | none =>
                    simp [insertDirs, hl, treeLeafAt,
                      lookupKey_setKey_other es d k _ (fun hx => hk hx.symm)]

theorem pathFree_insertDirs (dirs2 : List String) (t : STree) (last2 : String) (z : Zod)
    (dirs : List String) (last : String)
    (hfree : pathFree t dirs = true)
    (hnb : pathBegins (dirs2 ++ [last2]) (dirs ++ [last]) = false) :
    pathFree (insertDirs t dirs2 last2 z) dirs = true := by
  induction dirs2 generalizing t dirs with
  | nil =>
      cases t with
      | leaf z0 => simpa using hfree
      | node es =>
          cases dirs with
          | nil => simp [insertDirs, pathFree]
          | cons d rest =>
              have hd : last2 ≠ d := by
                intro hx
                subst hx
                simp [pathBegins] at hnb
              simp only [insertDirs, pathFree,
                lookupKey_setKey_other es last2 d (.leaf z) hd]
              simpa [pathFree] using hfree
  | cons d2 rest2 ih =>
      cases t with
      | leaf z0 => simpa using hfree
      | node es =>
          cases dirs with
          | nil =>
              cases hl : lookupKey es d2 <;> simp [insertDirs, hl, pathFree]
          | cons d rest =>
              by_cases hd : d2 = d
              · subst hd
                have hnb2 : pathBegins (rest2 ++ [last2]) (rest ++ [last]) = false := by
                  simpa [pathBegins] using hnb
                cases hl : lookupKey es d2 with
                | some t2 =>
                    have h2 : pathFree t2 rest = true := by
                      simpa [pathFree, hl] using hfree
                    simp [insertDirs, hl, pathFree, lookupKey_setKey_self,
                      ih t2 rest h2 hnb2]
                | none =>
                    simp [insertDirs, hl, pathFree, lookupKey_setKey_self,
                      ih (.node []) rest (pathFree_nilNode rest) hnb2]
              · cases hl : lookupKey es d2 with
                | some t2 =>
                    simp only [insertDirs, hl, pathFree,
                      lookupKey_setKey_other es d2 d _ hd]
                    simpa [pathFree] using hfree
                | none =>
                    simp only [insertDirs, hl, pathFree,
                      lookupKey_setKey_other es d2 d _ hd]
                    simpa [pathFree] using hfree

theorem lookupKey_makeZodShape (es : List (String × STree)) (k : String) :
    lookupKey (makeZodShape es) k = (lookupKey es k).map makeZod := by
  induction es with
  | nil => simp [makeZodShape, lookupKey]
  | cons e rest ih =>
      obtain ⟨k0, t0⟩ := e
      by_cases hk : k0 = k
      · simp [makeZodShape, lookupKey, hk]
      · simp [makeZodShape, lookupKey, hk, ih]

theorem zodLookup_makeZod (p : List String) (t : STree) (z : Zod)
    (h : treeLeafAt t p = some z) : zodLookup (makeZod t) p = some z := by
  induction p generalizing t with
  | nil =>
      cases t with
      | leaf z0 =>
          simp [treeLeafAt] at h
          simp [makeZod, zodLookup, h]
      | node es => simp [treeLeafAt] at h
  | cons k rest ih =>
      cases t with
      | leaf z0 => simp [treeLeafAt] at h
      | node es =>
          cases hl : lookupKey es k with
          | none => simp [treeLeafAt, hl] at h
          | some t2 =>
              have h2 : treeLeafAt t2 rest = some z := by
                simpa [treeLeafAt, hl] using h
              simp [makeZod, zodLookup, lookupKey_makeZodShape, hl, ih t2 h2]

theorem foldl_insertField_keeps (fs : List FieldDef) (t : STree) (q : List String)
    (h : ∀ f ∈ fs, IndepPaths q (pathOf f)) :
    treeLeafAt (fs.foldl insertField t) q = treeLeafAt t q := by
  induction fs generalizing t with
  | nil => rfl
  | cons f rest ih =>
      rw [List.foldl_cons, ih (insertField t f) (fun g hg => h g (by simp [hg]))]
      exact treeLeafAt_insertDirs_other (splitDirsLast f.field).1 t (splitDirsLast f.field).2
        f.z q (h f (by simp))

theorem foldl_insertField_free (fs : List FieldDef) (t : STree) (dirs : List String)
    (last : String) (hfree : pathFree t dirs = true)
    (h : ∀ f ∈ fs, pathBegins (pathOf f) (dirs ++ [last]) = false) :
    pathFree (fs.foldl insertField t) dirs = true := by
  induction fs generalizing t with
  | nil => exact hfree
  | cons f rest ih =>
      rw [List.foldl_cons]
      exact ih (insertField t f)
        (pathFree_insertDirs (splitDirsLast f.field).1 t (splitDirsLast f.field).2 f.z dirs last
          hfree (h f (by simp)))
        (fun g hg => h g (by simp [hg]))

theorem foldl_insertField_finds (fs : List FieldDef) (t : STree)
    (hpw : List.Pairwise (fun f g => IndepPaths (pathOf f) (pathOf g)) fs)
    (hfree : ∀ f ∈ fs, pathFree t (splitDirsLast f.field).1 = true) :
    ∀ f ∈ fs, treeLeafAt (fs.foldl insertField t) (pathOf f) = some f.z := by
  induction fs generalizing t with
  | nil => intro f hf; cases hf
  | cons f rest ih =>
      have hf : ∀ g ∈ rest, IndepPaths (pathOf f) (pathOf g) :=
        (List.pairwise_cons.mp hpw).1
      have hrest : List.Pairwise (fun f g => IndepPaths (pathOf f) (pathOf g)) rest :=
        (List.pairwise_cons.mp hpw).2
      intro g hg
      rcases List.mem_cons.mp hg with rfl | hmem
      · rw [List.foldl_cons,
          foldl_insertField_keeps rest (insertField t g) (pathOf g) hf]
        exact treeLeafAt_insertDirs_self (splitDirsLast g.field).1 t (splitDirsLast g.field).2
          g.z (hfree g (by simp))
      · rw [List.foldl_cons]
        exact ih (insertField t f) hrest
          (fun g2 hg2 =>
            pathFree_insertDirs (splitDirsLast f.field).1 t (splitDirsLast f.field).2 f.z
              (splitDirsLast g2.field).1 (splitDirsLast g2.field).2
              (hfree g2 (by simp [hg2])) (hf g2 hg2).1)
          g hmem

theorem foldl_insertField_node (fs : List FieldDef) (es : List (String × STree)) :
    ∃ es2, fs.foldl insertField (.node es) = .node es2 := by
  induction fs generalizing es with
  | nil => exact ⟨es, rfl⟩
  | cons f rest ih =>
      rw [List.foldl_cons]
      have : ∃ es1, insertField (.node es) f = .node es1 := by
        unfold insertField
        rcases hd : (splitDirsLast f.field).1 with _ | ⟨d, ds⟩
        · exact ⟨_, rfl⟩
        · cases hl : lookupKey es d with
          | some t2 =>
              refine ⟨setKey es d (insertDirs t2 ds (splitDirsLast f.field).2 f.z), ?_⟩
              simp [insertDirs, hl]
          | none =>
              refine ⟨setKey es d (insertDirs (.node []) ds (splitDirsLast f.field).2 f.z), ?_⟩
              simp [insertDirs, hl]
      obtain ⟨es1, h1⟩ := this
      rw [h1]
      exact ih es1

/-- C1 (amended): whenever no field's dotted path is an initial-segment
prefix of another's (segment-wise, after the split the source performs),
`zodFromFields` returns a `ZodObject` in which every field's validator sits
unchanged at its dotted path: a dot-free path at the top level, a path
"a.b" under key "a" then "b", and fields sharing a prefix merged into the
same nested object (all expressed by `zodLookup` resolving each split path to
the field's validator).  The claim as frozen — for EVERY field list — fails
when one path is a prefix of another: the nested field is silently dropped
(see the counterexample). -/
theorem zodFromFields_nests_validators (fields : List FieldDef)
    (hind : List.Pairwise (fun f g => IndepPaths (pathOf f) (pathOf g)) fields) :
    (∃ shape, zodFromFields fields = .object shape) ∧
    ∀ f ∈ fields, zodLookup (zodFromFields fields) (pathOf f) = some f.z := by
  constructor
  · obtain ⟨es2, h2⟩ := foldl_insertField_node fields []
    exact ⟨makeZodShape es2, by rw [zodFromFields, h2, makeZod]⟩
  · intro f hf
    exact zodLookup_makeZod (pathOf f) _ f.z
      (foldl_insertField_finds fields (.node []) hind
        (fun g _ => pathFree_nilNode (splitDirsLast g.field).1) f hf)

/-- Counterexample for C1 as frozen: with fields "a" (a string validator) and
"a.b" (a boolean validator), the claim requires key "a" to hold BOTH the
string validator unchanged and a `ZodObject` with "b" in its shape.  The code
drops the nested field: the result is `z.object({ a: z.string() })` and no
validator is reachable at path "a.b". -/
theorem zodFromFields_conflict_cex :
    zodFromFields [⟨"a", "A", .string⟩, ⟨"a.b", "B", .boolean⟩]
      = .object [("a", .string)] ∧
    zodLookup (zodFromFields [⟨"a", "A", .string⟩, ⟨"a.b", "B", .boolean⟩]) ["a", "b"]
      = none := by
  have h : zodFromFields [⟨"a", "A", .string⟩, ⟨"a.b", "B", .boolean⟩]
      = .object [("a", .string)] := by
    simp [zodFromFields, insertField, splitDirsLast, splitOnDots, splitDotAux, insertDirs,
      lookupKey, setKey, makeZod, makeZodShape]
  exact ⟨h, by rw [h]; rfl⟩

/-- Witness for C1: a prefix-free list with a top-level field and two nested
fields sharing the prefix "user" — each validator is found at its split
path. -/
theorem zodFromFields_nests_validators_witness :
    zodLookup (zodFromFields [⟨"age", "Age", .number⟩, ⟨"user.name", "N", .string⟩,
        ⟨"user.flag", "F", .boolean⟩]) ["age"] = some .number ∧
    zodLookup (zodFromFields [⟨"age", "Age", .number⟩, ⟨"user.name", "N", .string⟩,
        ⟨"user.flag", "F", .boolean⟩]) ["user", "name"] = some .string ∧
    zodLookup (zodFromFields [⟨"age", "Age", .number⟩, ⟨"user.name", "N", .string⟩,
        ⟨"user.flag", "F", .boolean⟩]) ["user", "flag"] = some .boolean := by
  have hmain := (zodFromFields_nests_validators
    [⟨"age", "Age", .number⟩, ⟨"user.name", "N", .string⟩, ⟨"user.flag", "F", .boolean⟩]
    (by
      refine List.pairwise_cons.mpr ⟨?_, List.pairwise_cons.mpr ⟨?_, ?_⟩⟩
      · intro g hg
        rcases List.mem_cons.mp hg with rfl | hg2
        · exact ⟨by decide, by decide⟩
        · rcases List.mem_cons.mp hg2 with rfl | h3
          · exact ⟨by decide, by decide⟩
          · cases h3
      · intro g hg
        rcases List.mem_cons.mp hg with rfl | h3
        · exact ⟨by decide, by decide⟩
        · cases h3
      · exact List.pairwise_singleton _ _)).2
  refine ⟨?_, ?_, ?_⟩
  · have := hmain ⟨"age", "Age", .number⟩ (by simp)
    simpa [pathOf, splitDirsLast, splitOnDots, splitDotAux] using this
  · have := hmain ⟨"user.name", "N", .string⟩ (by simp)
    simpa [pathOf, splitDirsLast, splitOnDots, splitDotAux] using this
  · have := hmain ⟨"user.flag", "F", .boolean⟩ (by simp)
    simpa [pathOf, splitDirsLast, splitOnDots, splitDotAux] using this
